import Mathlib

/-!
Verification of the entanglement-attempt engine of
`Quantum-Communication-Simulator` (`src/server.py`).

The engine is `run_quantum_simulation(noise_level, purification_enabled)`:
a bounded-retry loop (at most 3 attempts) that emits a trace of step
records and a result summary.  Randomness (`random.random()`, uniform on
[0,1)) is modelled as an explicit stream `rnd : ℕ → ℚ` of draws, consumed
left to right; real numbers are modelled by `ℚ`.  The human-readable
`message` string of each step is presentation-only (no claim mentions it)
and is not modelled; every other field of the Python dicts is kept.
Python's `steps[-1]` raises `IndexError` on an empty list, so the final
result assembly is modelled with `Option`: `none` is the exception case.
-/

namespace QuantumSim

/-- One emitted trace record (a Python dict in the source).  `fidelity` is
`none` when the dict has no `"fidelity"` key. -/
structure Step where
  status : String
  progress : ℚ
  attempt : ℕ
  fidelity : Option ℚ
deriving Repr, DecidableEq

/-- The `results` summary dict built after the loop. -/
structure SimResult where
  success : Bool
  fidelity : ℚ
  attempts : ℕ
  latency : ℚ
  noiseLevel : ℚ
  purificationEnabled : Bool
deriving Repr, DecidableEq

/-- Python's built-in `max` on two numbers (kernel-reducible form). -/
def pymax (a b : ℚ) : ℚ := if a ≤ b then b else a

/-- Python's built-in `min` on two numbers (kernel-reducible form). -/
def pymin (a b : ℚ) : ℚ := if a ≤ b then a else b

/-- `calculate_fidelity(noise_level, attempt)` from `src/server.py`, with the
single `random.random()` draw it makes passed in as `r`:
`base = 1 - noise_level`, `random_factor = r*0.2 - 0.1`,
`attempt_bonus = (attempt-1)*0.05`, result clamped to `[0.5, 1.0]` by
`max(0.5, min(1.0, fidelity))`. -/
def calculate_fidelity (noise_level : ℚ) (attempt : ℕ) (r : ℚ) : ℚ :=
  let base_fidelity := 1.0 - noise_level
  let random_factor := r * 0.2 - 0.1
  let attempt_bonus := ((attempt : ℚ) - 1) * 0.05
  let fidelity := base_fidelity + random_factor + attempt_bonus
  pymax 0.5 (pymin 1.0 fidelity)

/-- The straight-line body of one iteration of the `while` loop, up to (but
not including) the final success/retry decision: the two `initializing`
steps, the `sending` step, the `calculate_fidelity` call (consuming draw
`rnd k`) and the conditional purification block (consuming draw `rnd (k+1)`
and emitting two `purifying` steps when it runs), then the `measuring`
step.  Returns the steps emitted, the fidelity after the block, and the
index of the next unconsumed random draw. -/
def attemptBody (noise_level : ℚ) (purification_enabled : Bool) (rnd : ℕ → ℚ)
    (attempt k : ℕ) : List Step × ℚ × ℕ :=
  let pre : List Step :=
    [⟨"initializing", 0.1, attempt, none⟩,
     ⟨"initializing", 0.2, attempt, none⟩,
     ⟨"sending", 0.3, attempt, none⟩]
  let fidelity := calculate_fidelity noise_level attempt (rnd k)
  if purification_enabled ∧ fidelity < 0.8 then
    let fidelity2 := pymin (fidelity + (0.2 + rnd (k + 1) * 0.1)) 1.0
    (pre ++
      [⟨"purifying", 0.4, attempt, some fidelity⟩,
       ⟨"purifying", 0.5, attempt, some fidelity2⟩,
       ⟨"measuring", 0.7, attempt, some fidelity2⟩],
     fidelity2, k + 2)
  else
    (pre ++ [⟨"measuring", 0.7, attempt, some fidelity⟩], fidelity, k + 1)

/-- The `while not success and attempt < max_attempts` loop.  `fuel` is the
number of loop iterations still allowed, i.e. `max_attempts - attempt`;
the loop guard `attempt < max_attempts` is exactly `fuel > 0`.  Each
iteration increments `attempt`, runs `attemptBody`, and appends the
terminal `success` (progress 1.0) or `retry` (progress 0.9) step according
to `fidelity >= threshold` with `threshold = 0.8`.  Returns the step list,
the final `attempt` counter and the final `success` flag. -/
def simLoop (noise_level : ℚ) (purification_enabled : Bool) (rnd : ℕ → ℚ) :
    ℕ → ℕ → ℕ → List Step → Bool → List Step × ℕ × Bool
  | 0, attempt, _, steps, success => (steps, attempt, success)
  | fuel + 1, attempt, k, steps, success =>
    if success then (steps, attempt, success)
    else
      let a := attempt + 1
      let body := attemptBody noise_level purification_enabled rnd a k
      let fidelity := body.2.1
      if (0.8 : ℚ) ≤ fidelity then
        simLoop noise_level purification_enabled rnd fuel a body.2.2
          (steps ++ body.1 ++ [⟨"success", 1.0, a, some fidelity⟩]) true
      else
        simLoop noise_level purification_enabled rnd fuel a body.2.2
          (steps ++ body.1 ++ [⟨"retry", 0.9, a, some fidelity⟩]) false

/-- `run_quantum_simulation(noise_level, purification_enabled)` from
`src/server.py`: run the loop with `max_attempts = 3` starting from
`attempt = 0`, `success = False`, then assemble
`latency = attempt * (1 + noise_level)` and the results dict, whose
`fidelity` field is `steps[-1].get("fidelity", 0)`.  `steps[-1]` on an
empty list would raise `IndexError`; that case is modelled by `none`. -/
def run_quantum_simulation (noise_level : ℚ) (purification_enabled : Bool)
    (rnd : ℕ → ℚ) : Option (List Step × SimResult) :=
  let out := simLoop noise_level purification_enabled rnd 3 0 0 [] false
  let latency := (out.2.1 : ℚ) * (1 + noise_level)
  match out.1.getLast? with
  | none => none
  | some last =>
    some (out.1,
      { success := out.2.2
        fidelity := last.fidelity.getD 0
        attempts := out.2.1
        latency := latency
        noiseLevel := noise_level
        purificationEnabled := purification_enabled })

/-- Index of the first random draw consumed strictly after attempts
`1 .. a` have run: attempt `a+1` consumes two draws when the purification
branch fires for it (purification enabled and its raw fidelity below the
threshold), one draw otherwise.  Attempt `a`'s `calculate_fidelity` draw is
therefore `rnd (drawsUsed … (a-1))`. -/
def drawsUsed (noise_level : ℚ) (purification_enabled : Bool) (rnd : ℕ → ℚ) :
    ℕ → ℕ
  | 0 => 0
  | a + 1 =>
    let k := drawsUsed noise_level purification_enabled rnd a
    if purification_enabled ∧ calculate_fidelity noise_level (a + 1) (rnd k) < 0.8
    then k + 2 else k + 1

/-- The raw fidelity `calculate_fidelity` returns for attempt `a` (1-based),
as a function of the random stream: it consumes the draw at index
`drawsUsed … (a-1)`. -/
def rawFid (noise_level : ℚ) (purification_enabled : Bool) (rnd : ℕ → ℚ)
    (a : ℕ) : ℚ :=
  calculate_fidelity noise_level a
    (rnd (drawsUsed noise_level purification_enabled rnd (a - 1)))

/-- The fidelity recorded in the second `purifying` step of attempt `a`
(when the purification branch fires): raw fidelity plus the boost
`0.2 + rnd·0.1`, clamped to at most 1. -/
def purifiedFid (noise_level : ℚ) (purification_enabled : Bool) (rnd : ℕ → ℚ)
    (a : ℕ) : ℚ :=
  pymin (rawFid noise_level purification_enabled rnd a +
    (0.2 + rnd (drawsUsed noise_level purification_enabled rnd (a - 1) + 1) * 0.1)) 1.0

/-- `True` of a step exactly when it is a `purifying` step of attempt `a`
(the predicate the purification claims filter the trace with). -/
def isPurStep (a : ℕ) (s : Step) : Bool := s.status == "purifying" && s.attempt == a

/-- Claim predicate (from the spec wording, not from the source): a step
carries a fidelity value exactly when it sits at or after the `measuring`
step of its own attempt in trace order. -/
def fidelityFromMeasuringOn (st : List Step) : Bool :=
  st.enum.all fun q =>
    q.2.fidelity.isSome == st.enum.any fun q2 =>
      decide (q2.1 ≤ q.1) && (q2.2.status == "measuring") && (q2.2.attempt == q.2.attempt)

section Lemmas

variable (ν : ℚ) (p : Bool) (rnd : ℕ → ℚ)

theorem pymax_eq_max (a b : ℚ) : pymax a b = max a b := by
  unfold pymax
  split
  next h => exact (max_eq_right h).symm
  next h => exact (max_eq_left (le_of_not_le h)).symm

theorem pymin_eq_min (a b : ℚ) : pymin a b = min a b := by
  unfold pymin
  split
  next h => exact (min_eq_left h).symm
  next h => exact (min_eq_right (le_of_not_le h)).symm


theorem calculate_fidelity_lb (a : ℕ) (r : ℚ) :
    1 / 2 ≤ calculate_fidelity ν a r := by
  unfold calculate_fidelity
  rw [pymax_eq_max]
  calc (1 / 2 : ℚ) = 0.5 := by norm_num
  _ ≤ _ := le_max_left _ _

theorem calculate_fidelity_ub (a : ℕ) (r : ℚ) :
    calculate_fidelity ν a r ≤ 1 := by
  unfold calculate_fidelity
  rw [pymax_eq_max, pymin_eq_min]
  apply max_le (by norm_num)
  calc min (1.0 : ℚ) _ ≤ 1.0 := min_le_left _ _
  _ = 1 := by norm_num

theorem attemptBody_fid_lb (a k : ℕ) (hr : 0 ≤ rnd (k + 1)) :
    1 / 2 ≤ (attemptBody ν p rnd a k).2.1 := by
  simp only [attemptBody]
  split
  · rw [pymin_eq_min]
    simp only
    refine le_min ?_ (by norm_num)
    have h1 := calculate_fidelity_lb ν a (rnd k)
    nlinarith
  · exact calculate_fidelity_lb ν a (rnd k)

theorem attemptBody_fid_ub (a k : ℕ) :
    (attemptBody ν p rnd a k).2.1 ≤ 1 := by
  simp only [attemptBody]
  split
  · rw [pymin_eq_min]
    simp only
    calc min _ (1.0 : ℚ) ≤ 1.0 := min_le_right _ _
    _ = 1 := by norm_num
  · exact calculate_fidelity_ub ν a (rnd k)

theorem attemptBody_attempt_eq (a k : ℕ) :
    ∀ s ∈ (attemptBody ν p rnd a k).1, s.attempt = a := by
  simp only [attemptBody]
  split
  · intro s hs
    simp only [List.cons_append, List.nil_append, List.mem_cons,
      List.not_mem_nil, or_false] at hs
    rcases hs with h | h | h | h | h | h <;> subst h <;> rfl
  · intro s hs
    simp only [List.cons_append, List.nil_append, List.mem_cons,
      List.not_mem_nil, or_false] at hs
    rcases hs with h | h | h | h <;> subst h <;> rfl

theorem attemptBody_length (a k : ℕ) :
    (attemptBody ν p rnd a k).1.length ≤ 6 := by
  simp only [attemptBody]
  split <;> simp

theorem attemptBody_k (a : ℕ) :
    (attemptBody ν p rnd (a + 1) (drawsUsed ν p rnd a)).2.2 =
      drawsUsed ν p rnd (a + 1) := by
  rw [attemptBody, drawsUsed]
  split
  next h => simp only [if_pos h]
  next h => simp only [if_neg h]

theorem attemptBody_raw (a : ℕ) :
    calculate_fidelity ν a (rnd (drawsUsed ν p rnd (a - 1))) = rawFid ν p rnd a := rfl

theorem simLoop_true (fuel attempt k : ℕ) (steps : List Step) :
    simLoop ν p rnd fuel attempt k steps true = (steps, attempt, true) := by
  cases fuel <;> simp [simLoop]

theorem simLoop_false_succ (fuel attempt k : ℕ) (steps : List Step) :
    simLoop ν p rnd (fuel + 1) attempt k steps false =
      (if (0.8 : ℚ) ≤ (attemptBody ν p rnd (attempt + 1) k).2.1 then
        simLoop ν p rnd fuel (attempt + 1) (attemptBody ν p rnd (attempt + 1) k).2.2
          (steps ++ (attemptBody ν p rnd (attempt + 1) k).1 ++
            [⟨"success", 1.0, attempt + 1,
              some (attemptBody ν p rnd (attempt + 1) k).2.1⟩]) true
      else
        simLoop ν p rnd fuel (attempt + 1) (attemptBody ν p rnd (attempt + 1) k).2.2
          (steps ++ (attemptBody ν p rnd (attempt + 1) k).1 ++
            [⟨"retry", 0.9, attempt + 1,
              some (attemptBody ν p rnd (attempt + 1) k).2.1⟩]) false) := by
  simp [simLoop]

theorem simLoop_attempts (fuel : ℕ) : ∀ (attempt k : ℕ) (steps : List Step),
    attempt ≤ (simLoop ν p rnd fuel attempt k steps false).2.1 ∧
    (simLoop ν p rnd fuel attempt k steps false).2.1 ≤ attempt + fuel ∧
    (0 < fuel → attempt < (simLoop ν p rnd fuel attempt k steps false).2.1) := by
  induction fuel with
  | zero => intro attempt k steps; simp [simLoop]
  | succ n ih =>
    intro attempt k steps
    rw [simLoop_false_succ]
    split
    · rw [simLoop_true]
      dsimp only
      refine ⟨by omega, by omega, fun _ => by omega⟩
    · obtain ⟨h1, h2, _⟩ := ih (attempt + 1) (attemptBody ν p rnd (attempt + 1) k).2.2
        (steps ++ (attemptBody ν p rnd (attempt + 1) k).1 ++
          [⟨"retry", 0.9, attempt + 1, some (attemptBody ν p rnd (attempt + 1) k).2.1⟩])
      refine ⟨by omega, by omega, fun _ => by omega⟩

theorem simLoop_length (fuel : ℕ) : ∀ (attempt k : ℕ) (steps : List Step),
    (simLoop ν p rnd fuel attempt k steps false).1.length ≤
      steps.length + 7 * fuel := by
  induction fuel with
  | zero => intro attempt k steps; simp [simLoop]
  | succ n ih =>
    intro attempt k steps
    rw [simLoop_false_succ]
    have hb := attemptBody_length ν p rnd (attempt + 1) k
    split
    · rw [simLoop_true]
      simp only [List.length_append, List.length_cons, List.length_nil]
      omega
    · have := ih (attempt + 1) (attemptBody ν p rnd (attempt + 1) k).2.2
        (steps ++ (attemptBody ν p rnd (attempt + 1) k).1 ++
          [⟨"retry", 0.9, attempt + 1, some (attemptBody ν p rnd (attempt + 1) k).2.1⟩])
      simp only [List.length_append, List.length_cons, List.length_nil] at this
      omega

theorem simLoop_last (fuel : ℕ) : ∀ (attempt k : ℕ) (steps st : List Step)
    (att : ℕ) (suc : Bool),
    0 < fuel →
    simLoop ν p rnd fuel attempt k steps false = (st, att, suc) →
    ∃ k' f, f = (attemptBody ν p rnd att k').2.1 ∧
      ((suc = true ∧ st.getLast? = some ⟨"success", 1.0, att, some f⟩ ∧ (0.8 : ℚ) ≤ f) ∨
       (suc = false ∧ st.getLast? = some ⟨"retry", 0.9, att, some f⟩ ∧ f < (0.8 : ℚ))) := by
  induction fuel with
  | zero => intro attempt k steps st att suc hf; omega
  | succ n ih =>
    intro attempt k steps st att suc _ h
    rw [simLoop_false_succ] at h
    split at h
    next hge =>
      rw [simLoop_true] at h
      simp only [Prod.mk.injEq] at h
      obtain ⟨rfl, rfl, rfl⟩ := h
      exact ⟨k, _, rfl, Or.inl ⟨rfl, List.getLast?_concat _, hge⟩⟩
    next hlt =>
      rcases Nat.eq_zero_or_pos n with hn | hn
      · subst hn
        simp only [simLoop, Prod.mk.injEq] at h
        obtain ⟨rfl, rfl, rfl⟩ := h
        exact ⟨k, _, rfl, Or.inr ⟨rfl, List.getLast?_concat _, lt_of_not_le hlt⟩⟩
      · exact ih _ _ _ _ _ _ hn h

theorem run_inv (st : List Step) (res : SimResult)
    (h : run_quantum_simulation ν p rnd = some (st, res)) :
    ∃ att suc last,
      simLoop ν p rnd 3 0 0 [] false = (st, att, suc) ∧
      st.getLast? = some last ∧
      res = ⟨suc, last.fidelity.getD 0, att, (att : ℚ) * (1 + ν), ν, p⟩ := by
  simp only [run_quantum_simulation] at h
  split at h
  · exact absurd h (by simp)
  next last hlast =>
    simp only [Option.some.injEq, Prod.mk.injEq] at h
    obtain ⟨rfl, rfl⟩ := h
    exact ⟨_, _, last, rfl, hlast, rfl⟩

theorem run_total : ∃ st res, run_quantum_simulation ν p rnd = some (st, res) := by
  obtain ⟨k', f, hf, hcase⟩ := simLoop_last ν p rnd 3 0 0 []
    (simLoop ν p rnd 3 0 0 [] false).1 (simLoop ν p rnd 3 0 0 [] false).2.1
    (simLoop ν p rnd 3 0 0 [] false).2.2 (by norm_num) rfl
  simp only [run_quantum_simulation]
  rcases hcase with ⟨hs, hl, _⟩ | ⟨hs, hl, _⟩ <;> rw [hl] <;> exact ⟨_, _, rfl⟩

theorem simLoop_invariant (P : Step → Prop) (fuel : ℕ) :
    ∀ (attempt k : ℕ) (steps : List Step),
      (∀ a k', attempt < a → a ≤ attempt + fuel →
        ∀ s ∈ (attemptBody ν p rnd a k').1, P s) →
      (∀ a k', attempt < a → a ≤ attempt + fuel →
        P ⟨"success", 1.0, a, some (attemptBody ν p rnd a k').2.1⟩) →
      (∀ a k', attempt < a → a ≤ attempt + fuel →
        P ⟨"retry", 0.9, a, some (attemptBody ν p rnd a k').2.1⟩) →
      (∀ s ∈ steps, P s) →
      ∀ s ∈ (simLoop ν p rnd fuel attempt k steps false).1, P s := by
  induction fuel with
  | zero => intro attempt k steps _ _ _ hsteps; simpa [simLoop] using hsteps
  | succ n ih =>
    intro attempt k steps hbody hsucc hretry hsteps
    have hnew : ∀ t : Step,
        (t = ⟨"success", 1.0, attempt + 1, some (attemptBody ν p rnd (attempt + 1) k).2.1⟩ ∨
         t = ⟨"retry", 0.9, attempt + 1, some (attemptBody ν p rnd (attempt + 1) k).2.1⟩) →
        ∀ s ∈ steps ++ (attemptBody ν p rnd (attempt + 1) k).1 ++ [t], P s := by
      intro t ht s hs
      simp only [List.mem_append, List.mem_cons, List.not_mem_nil, or_false] at hs
      rcases hs with (hs | hs) | hs
      · exact hsteps s hs
      · exact hbody (attempt + 1) k (by omega) (by omega) s hs
      · subst hs
        rcases ht with rfl | rfl
        · exact hsucc (attempt + 1) k (by omega) (by omega)
        · exact hretry (attempt + 1) k (by omega) (by omega)
    rw [simLoop_false_succ]
    split
    · rw [simLoop_true]
      exact hnew _ (Or.inl rfl)
    · exact ih (attempt + 1) _ _
        (fun a k' h1 h2 => hbody a k' (by omega) (by omega))
        (fun a k' h1 h2 => hsucc a k' (by omega) (by omega))
        (fun a k' h1 h2 => hretry a k' (by omega) (by omega))
        (hnew _ (Or.inr rfl))

theorem simLoop_all_fail (fuel : ℕ) : ∀ (attempt k : ℕ) (steps : List Step),
    (∀ a k', attempt < a → a ≤ attempt + fuel →
      (attemptBody ν p rnd a k').2.1 < 0.8) →
    (simLoop ν p rnd fuel attempt k steps false).2 = (attempt + fuel, false) := by
  induction fuel with
  | zero => intro attempt k steps _; simp [simLoop]
  | succ n ih =>
    intro attempt k steps hfail
    rw [simLoop_false_succ]
    split
    next hge =>
      exact absurd (hfail (attempt + 1) k (by omega) (by omega)) (not_lt.mpr hge)
    next hlt =>
      have := ih (attempt + 1) (attemptBody ν p rnd (attempt + 1) k).2.2
        (steps ++ (attemptBody ν p rnd (attempt + 1) k).1 ++
          [⟨"retry", 0.9, attempt + 1, some (attemptBody ν p rnd (attempt + 1) k).2.1⟩])
        (fun a k' h1 h2 => hfail a k' (by omega) (by omega))
      rw [this]
      simp [Nat.add_assoc, Nat.add_comm 1 n]

theorem attemptBody_filter_pur (a a' k : ℕ) :
    (attemptBody ν p rnd a k).1.filter (isPurStep a') =
      if a' = a ∧ p = true ∧ calculate_fidelity ν a (rnd k) < 0.8 then
        [⟨"purifying", 0.4, a, some (calculate_fidelity ν a (rnd k))⟩,
         ⟨"purifying", 0.5, a,
          some (pymin (calculate_fidelity ν a (rnd k) + (0.2 + rnd (k + 1) * 0.1)) 1.0)⟩]
      else [] := by
  simp only [attemptBody]
  split
  next hc =>
    by_cases ha : a' = a
    · subst ha
      simp +decide [isPurStep, List.filter, hc]
    · have hbeq : (a == a') = false := by
        simp [Ne.symm ha]
      simp +decide [isPurStep, List.filter, ha, hbeq]
  next hc =>
    by_cases ha : a' = a
    · subst ha
      simp +decide [isPurStep, List.filter, hc]
    · simp +decide [isPurStep, List.filter, ha]

theorem simLoop_filter_pur (fuel : ℕ) :
    ∀ (attempt : ℕ) (steps st : List Step) (att : ℕ) (suc : Bool),
    simLoop ν p rnd fuel attempt (drawsUsed ν p rnd attempt) steps false = (st, att, suc) →
    ∀ a, st.filter (isPurStep a) =
      steps.filter (isPurStep a) ++
      (if attempt < a ∧ a ≤ att ∧ p = true ∧ rawFid ν p rnd a < 0.8 then
        [⟨"purifying", 0.4, a, some (rawFid ν p rnd a)⟩,
         ⟨"purifying", 0.5, a, some (purifiedFid ν p rnd a)⟩]
      else []) := by
  induction fuel with
  | zero =>
    intro attempt steps st att suc h a
    simp only [simLoop, Prod.mk.injEq] at h
    obtain ⟨rfl, rfl, rfl⟩ := h
    have hno : ¬(attempt < a ∧ a ≤ attempt ∧ p = true ∧ rawFid ν p rnd a < 0.8) := by omega
    simp [hno]
  | succ n ih =>
    intro attempt steps st att suc h a
    rw [simLoop_false_succ] at h
    have hfb := attemptBody_filter_pur ν p rnd (attempt + 1) a (drawsUsed ν p rnd attempt)
    have hraw : calculate_fidelity ν (attempt + 1) (rnd (drawsUsed ν p rnd attempt)) =
        rawFid ν p rnd (attempt + 1) := rfl
    rw [hraw] at hfb
    have hpur : pymin (rawFid ν p rnd (attempt + 1) +
        (0.2 + rnd (drawsUsed ν p rnd attempt + 1) * 0.1)) 1.0 =
        purifiedFid ν p rnd (attempt + 1) := rfl
    rw [hpur] at hfb
    split at h
    next hge =>
      rw [simLoop_true] at h
      simp only [Prod.mk.injEq] at h
      obtain ⟨rfl, rfl, rfl⟩ := h
      have hterm : List.filter (isPurStep a)
          [(⟨"success", 1.0, attempt + 1,
            some (attemptBody ν p rnd (attempt + 1) (drawsUsed ν p rnd attempt)).2.1⟩ : Step)] = [] := by
        simp +decide [isPurStep, List.filter]
      rw [List.filter_append, List.filter_append, hfb, hterm, List.append_nil]
      congr 1
      by_cases ha : a = attempt + 1
      · subst ha
        by_cases hc : p = true ∧ rawFid ν p rnd (attempt + 1) < 0.8
        · rw [if_pos ⟨rfl, hc⟩, if_pos ⟨by omega, by omega, hc⟩]
        · rw [if_neg (fun hcon => hc hcon.2), if_neg (fun hcon => hc hcon.2.2)]
      · rw [if_neg (fun hcon => ha hcon.1),
          if_neg (fun hcon => ha (by omega))]
    next hlt =>
      rw [attemptBody_k] at h
      have hA : attempt + 1 ≤ att := by
        have hatt := (simLoop_attempts ν p rnd n (attempt + 1)
          (drawsUsed ν p rnd (attempt + 1))
          (steps ++ (attemptBody ν p rnd (attempt + 1) (drawsUsed ν p rnd attempt)).1 ++
            [⟨"retry", 0.9, attempt + 1,
              some (attemptBody ν p rnd (attempt + 1) (drawsUsed ν p rnd attempt)).2.1⟩])).1
        rw [h] at hatt
        exact hatt
      have hih := ih (attempt + 1) _ st att suc h a
      have hterm : List.filter (isPurStep a)
          [(⟨"retry", 0.9, attempt + 1,
            some (attemptBody ν p rnd (attempt + 1) (drawsUsed ν p rnd attempt)).2.1⟩ : Step)] = [] := by
        simp +decide [isPurStep, List.filter]
      rw [List.filter_append, List.filter_append, hfb, hterm, List.append_nil,
        List.append_assoc] at hih
      rw [hih]
      congr 1
      by_cases ha : a = attempt + 1
      · subst ha
        by_cases hc : p = true ∧ rawFid ν p rnd (attempt + 1) < 0.8
        · rw [if_pos ⟨rfl, hc⟩, if_neg (fun hcon => absurd hcon.1 (by omega)),
            List.append_nil, if_pos ⟨by omega, hA, hc⟩]
        · rw [if_neg (fun hcon => hc hcon.2), if_neg (fun hcon => hc hcon.2.2),
            if_neg (fun hcon => hc hcon.2.2), List.nil_append]
      · rw [if_neg (fun hcon => ha hcon.1), List.nil_append]
        by_cases hc : attempt + 1 < a ∧ a ≤ att ∧ p = true ∧ rawFid ν p rnd a < 0.8
        · rw [if_pos hc, if_pos ⟨by omega, hc.2⟩]
        · rw [if_neg hc, if_neg (fun hcon => hc ⟨by omega, hcon.2⟩)]

end Lemmas


/-- C1: for every noise level, purification setting and stream of random
draws, the result's `success` field is true iff the final trace step has
status `"success"` and carries a fidelity `≥ 0.8`; and when `success` is
false the final step has status `"retry"`. -/
theorem success_iff_final_success_step (ν : ℚ) (p : Bool) (rnd : ℕ → ℚ)
    (st : List Step) (res : SimResult)
    (h : run_quantum_simulation ν p rnd = some (st, res)) :
    (res.success = true ↔ ∃ last, st.getLast? = some last ∧
      last.status = "success" ∧ ∃ f, last.fidelity = some f ∧ (0.8 : ℚ) ≤ f) ∧
    (res.success = false → ∃ last, st.getLast? = some last ∧ last.status = "retry") := by
  obtain ⟨att, suc, last, hsim, hlast, hres⟩ := run_inv ν p rnd st res h
  obtain ⟨k', f, hf, hcase⟩ := simLoop_last ν p rnd 3 0 0 [] st att suc (by norm_num) hsim
  subst hres
  rcases hcase with ⟨hs, hl, hge⟩ | ⟨hs, hl, hlt⟩
  · subst hs
    refine ⟨⟨fun _ => ⟨_, hl, rfl, f, rfl, hge⟩, fun _ => rfl⟩, fun hco => ?_⟩
    exact absurd hco (by simp)
  · subst hs
    refine ⟨⟨fun hco => absurd hco (by simp), ?_⟩, fun _ => ⟨_, hl, rfl⟩⟩
    rintro ⟨last2, hl2, hstat, -⟩
    rw [hl] at hl2
    obtain rfl := Option.some.inj hl2
    exact absurd hstat (by simp)

/-- C2: for every noise level, purification setting and random stream the
run terminates with an `attempts` count between 1 and 3. -/
theorem attempts_between_one_and_three (ν : ℚ) (p : Bool) (rnd : ℕ → ℚ) :
    ∃ st res, run_quantum_simulation ν p rnd = some (st, res) ∧
      1 ≤ res.attempts ∧ res.attempts ≤ 3 := by
  obtain ⟨st, res, h⟩ := run_total ν p rnd
  obtain ⟨att, suc, last, hsim, hlast, hres⟩ := run_inv ν p rnd st res h
  obtain ⟨h1, h2, h3⟩ := simLoop_attempts ν p rnd 3 0 0 []
  rw [hsim] at h1 h2 h3
  have h4 := h3 (by norm_num)
  subst hres
  exact ⟨st, _, h, by dsimp at h4 ⊢; omega, by dsimp at h2 ⊢; omega⟩

/-- C3: with non-negative random draws, the result's `fidelity` lies in
`[1/2, 1]`, and it is exactly the fidelity carried by the last trace step
(so the `0` fallback for a missing fidelity field is never used). -/
theorem result_fidelity_in_range (ν : ℚ) (p : Bool) (rnd : ℕ → ℚ)
    (hr : ∀ i, 0 ≤ rnd i) :
    ∃ st res, run_quantum_simulation ν p rnd = some (st, res) ∧
      1 / 2 ≤ res.fidelity ∧ res.fidelity ≤ 1 ∧
      ∃ last, st.getLast? = some last ∧ last.fidelity = some res.fidelity := by
  obtain ⟨st, res, h⟩ := run_total ν p rnd
  obtain ⟨att, suc, last, hsim, hlast, hres⟩ := run_inv ν p rnd st res h
  obtain ⟨k', f, hf, hcase⟩ := simLoop_last ν p rnd 3 0 0 [] st att suc (by norm_num) hsim
  have hlb : 1 / 2 ≤ f := hf ▸ attemptBody_fid_lb ν p rnd att k' (hr (k' + 1))
  have hub : f ≤ 1 := hf ▸ attemptBody_fid_ub ν p rnd att k'
  rcases hcase with ⟨-, hl, -⟩ | ⟨-, hl, -⟩ <;>
  · rw [hlast] at hl
    obtain rfl := Option.some.inj hl
    subst hres
    exact ⟨st, _, h, hlb, hub, _, hlast, rfl⟩

/-- C7: the result's `latency` field is exactly `attempts * (1 + noiseLevel)`,
a deterministic function of the attempt count and the noise level. -/
theorem latency_eq_attempts_mul (ν : ℚ) (p : Bool) (rnd : ℕ → ℚ)
    (st : List Step) (res : SimResult)
    (h : run_quantum_simulation ν p rnd = some (st, res)) :
    res.latency = (res.attempts : ℚ) * (1 + ν) ∧ res.noiseLevel = ν := by
  obtain ⟨att, suc, last, hsim, hlast, hres⟩ := run_inv ν p rnd st res h
  subst hres
  exact ⟨rfl, rfl⟩

/-- C9: for every noise level (also outside `[0,1]`), purification setting
and random stream, the run returns a result (never the exception case) and
its trace is non-empty, so the `steps[-1]` access is safe. -/
theorem run_never_fails (ν : ℚ) (p : Bool) (rnd : ℕ → ℚ) :
    ∃ st res, run_quantum_simulation ν p rnd = some (st, res) ∧ st ≠ [] := by
  obtain ⟨st, res, h⟩ := run_total ν p rnd
  obtain ⟨att, suc, last, hsim, hlast, hres⟩ := run_inv ν p rnd st res h
  refine ⟨st, res, h, ?_⟩
  intro hnil
  subst hnil
  simp at hlast

/-- C5 as stated is false at `noiseLevel = 1`, purification on, all draws 0:
every attempt emits 7 steps (2 initializing, 1 sending, 2 purifying,
1 measuring, 1 retry), so the trace has 21 > 18 steps. -/
theorem trace_length_cex :
    ∃ st res, run_quantum_simulation 1 true (fun _ => 0) = some (st, res) ∧
      ¬ st.length ≤ 18 :=
  ⟨_, _, by with_unfolding_all rfl, by with_unfolding_all decide⟩

/-- C5 amended: the trace contains at most 21 steps in total (at most 7
steps emitted per attempt, over at most 3 attempts). -/
theorem trace_length_le_21 (ν : ℚ) (p : Bool) (rnd : ℕ → ℚ)
    (st : List Step) (res : SimResult)
    (h : run_quantum_simulation ν p rnd = some (st, res)) :
    st.length ≤ 21 := by
  obtain ⟨att, suc, last, hsim, hlast, hres⟩ := run_inv ν p rnd st res h
  have hlen := simLoop_length ν p rnd 3 0 0 []
  rw [hsim] at hlen
  simpa using hlen

theorem trace_length_le_21_witness :
    ∃ st res, run_quantum_simulation 1 true (fun _ => 0) = some (st, res) ∧
      st.length ≤ 21 :=
  ⟨_, _, by with_unfolding_all rfl,
    trace_length_le_21 1 true (fun _ => 0) _ _ (by with_unfolding_all rfl)⟩

/-- C8 as stated is false: in the run with `noiseLevel = 1`, purification
on and all draws 0, the first `purifying` step carries a fidelity value but
sits before the `measuring` step of its attempt. -/
theorem fidelity_from_measuring_cex :
    ∃ st res, run_quantum_simulation 1 true (fun _ => 0) = some (st, res) ∧
      fidelityFromMeasuringOn st = false :=
  ⟨_, _, by with_unfolding_all rfl, by with_unfolding_all decide⟩

/-- C8 amended: a step carries a fidelity field exactly when its status is
neither `"initializing"` nor `"sending"`, i.e. from the point the raw
fidelity is computed onward (which includes the two `purifying` steps that
precede the `measuring` step). -/
theorem fidelity_iff_past_sending (ν : ℚ) (p : Bool) (rnd : ℕ → ℚ)
    (st : List Step) (res : SimResult)
    (h : run_quantum_simulation ν p rnd = some (st, res)) :
    ∀ s ∈ st, s.fidelity = none ↔
      (s.status = "initializing" ∨ s.status = "sending") := by
  obtain ⟨att, suc, last, hsim, hlast, hres⟩ := run_inv ν p rnd st res h
  have hinv := simLoop_invariant ν p rnd
    (fun s => (s.fidelity = none ↔ (s.status = "initializing" ∨ s.status = "sending")))
    3 0 0 [] ?_ ?_ ?_ (by simp)
  · rw [hsim] at hinv
    exact hinv
  · intro a k' _ _ s hs
    simp only [attemptBody] at hs
    split at hs
    · simp only [List.cons_append, List.nil_append, List.mem_cons,
        List.not_mem_nil, or_false] at hs
      rcases hs with h | h | h | h | h | h <;> subst h <;> simp +decide
    · simp only [List.cons_append, List.nil_append, List.mem_cons,
        List.not_mem_nil, or_false] at hs
      rcases hs with h | h | h | h <;> subst h <;> simp +decide
  · intro a k' _ _
    simp +decide
  · intro a k' _ _
    simp +decide

theorem fidelity_iff_past_sending_witness :
    ∃ st res, run_quantum_simulation 1 true (fun _ => 0) = some (st, res) ∧
      ∀ s ∈ st, s.fidelity = none ↔
        (s.status = "initializing" ∨ s.status = "sending") :=
  ⟨_, _, by with_unfolding_all rfl,
    fidelity_iff_past_sending 1 true (fun _ => 0) _ _ (by with_unfolding_all rfl)⟩

/-- C4: with purification enabled and non-negative draws, every executed
attempt whose raw fidelity is below 0.8 contributes exactly two
`purifying` steps to the trace, at progress 0.4 and 0.5, and the fidelity
recorded in the second is at least the one recorded in the first. -/
theorem purifying_pair_when_low_fidelity (ν : ℚ) (rnd : ℕ → ℚ)
    (hr : ∀ i, 0 ≤ rnd i) (a : ℕ) (st : List Step) (res : SimResult)
    (h : run_quantum_simulation ν true rnd = some (st, res))
    (ha1 : 1 ≤ a) (ha2 : a ≤ res.attempts)
    (hraw : rawFid ν true rnd a < 0.8) :
    ∃ f1 f2, st.filter (isPurStep a) =
      [⟨"purifying", 0.4, a, some f1⟩, ⟨"purifying", 0.5, a, some f2⟩] ∧
      f1 ≤ f2 := by
  obtain ⟨att, suc, last, hsim, hlast, hres⟩ := run_inv ν true rnd st res h
  have hfil := simLoop_filter_pur ν true rnd 3 0 [] st att suc hsim a
  have hle : a ≤ att := by
    subst hres
    exact ha2
  rw [hfil, if_pos ⟨by omega, hle, rfl, hraw⟩, List.filter_nil, List.nil_append]
  refine ⟨rawFid ν true rnd a, purifiedFid ν true rnd a, rfl, ?_⟩
  unfold purifiedFid
  rw [pymin_eq_min]
  refine le_min ?_ ?_
  · have h0 := hr (drawsUsed ν true rnd (a - 1) + 1)
    nlinarith
  · calc rawFid ν true rnd a ≤ 1 := calculate_fidelity_ub ν a _
    _ = (1.0 : ℚ) := by norm_num

theorem purifying_pair_when_low_fidelity_witness :
    ∃ st res, run_quantum_simulation 1 true (fun _ => 0) = some (st, res) ∧
      ∃ f1 f2, st.filter (isPurStep 1) =
        [⟨"purifying", 0.4, 1, some f1⟩, ⟨"purifying", 0.5, 1, some f2⟩] ∧
        f1 ≤ f2 :=
  ⟨_, _, by with_unfolding_all rfl,
    purifying_pair_when_low_fidelity 1 (fun _ => 0) (fun i => le_refl 0) 1 _ _
      (by with_unfolding_all rfl) (le_refl 1)
      (by with_unfolding_all decide) (by with_unfolding_all decide)⟩

/-- C10: a `purifying` step for attempt `a` appears only when purification
is enabled and that attempt's raw fidelity is below 0.8: with purification
disabled, or when the raw fidelity is at least 0.8, the trace has no
`purifying` step of attempt `a`. -/
theorem no_purifying_otherwise (ν : ℚ) (p : Bool) (rnd : ℕ → ℚ) (a : ℕ)
    (st : List Step) (res : SimResult)
    (h : run_quantum_simulation ν p rnd = some (st, res))
    (hcond : p = false ∨ (0.8 : ℚ) ≤ rawFid ν p rnd a) :
    st.filter (isPurStep a) = [] := by
  obtain ⟨att, suc, last, hsim, hlast, hres⟩ := run_inv ν p rnd st res h
  have hfil := simLoop_filter_pur ν p rnd 3 0 [] st att suc hsim a
  rw [hfil, List.filter_nil, List.nil_append, if_neg]
  rintro ⟨-, -, hp, hlow⟩
  rcases hcond with hfalse | hge
  · rw [hfalse] at hp
    exact Bool.false_ne_true hp
  · exact absurd hlow (not_lt.mpr hge)

theorem no_purifying_otherwise_witness :
    ∃ st res, run_quantum_simulation 1 false (fun _ => 0) = some (st, res) ∧
      st.filter (isPurStep 1) = [] :=
  ⟨_, _, by with_unfolding_all rfl,
    no_purifying_otherwise 1 false (fun _ => 0) 1 _ _
      (by with_unfolding_all rfl) (Or.inl rfl)⟩

/-- Helper for C6: at `noiseLevel = 1` the clamped fidelity is exactly 1/2
for every attempt up to 3 and every draw in `[0, 1)`. -/
theorem calculate_fidelity_noise_one (a : ℕ) (ha : a ≤ 3) (r : ℚ)
    (h0 : 0 ≤ r) (h1 : r < 1) : calculate_fidelity 1 a r = 1 / 2 := by
  simp only [calculate_fidelity]
  have hcast : (a : ℚ) ≤ 3 := by exact_mod_cast ha
  rw [pymin_eq_min, pymax_eq_max]
  have hmin : min (1.0 : ℚ) (1.0 - 1 + (r * 0.2 - 0.1) + (((a : ℚ)) - 1) * 0.05) =
      1.0 - 1 + (r * 0.2 - 0.1) + (((a : ℚ)) - 1) * 0.05 := by
    apply min_eq_right
    nlinarith
  rw [hmin]
  have hmax : max (0.5 : ℚ) (1.0 - 1 + (r * 0.2 - 0.1) + (((a : ℚ)) - 1) * 0.05) =
      (0.5 : ℚ) := by
    apply max_eq_left
    nlinarith
  rw [hmax]
  norm_num

/-- C6: at `noiseLevel = 1` without purification, every attempt's raw
fidelity is clamped up to the 0.5 minimum and stays below the 0.8
threshold, so the run exhausts all 3 attempts and fails. -/
theorem noise_one_always_fails (rnd : ℕ → ℚ)
    (hr : ∀ i, 0 ≤ rnd i ∧ rnd i < 1) :
    ∃ st res, run_quantum_simulation 1 false rnd = some (st, res) ∧
      res.attempts = 3 ∧ res.success = false ∧
      ∀ a, 1 ≤ a → a ≤ 3 →
        rawFid 1 false rnd a = 1 / 2 ∧ rawFid 1 false rnd a < 0.8 := by
  obtain ⟨st, res, h⟩ := run_total 1 false rnd
  obtain ⟨att, suc, last, hsim, hlast, hres⟩ := run_inv 1 false rnd st res h
  have hfid : ∀ a k', (attemptBody 1 false rnd a k').2.1 =
      calculate_fidelity 1 a (rnd k') := by
    intro a k'
    simp only [attemptBody]
    rw [if_neg]
    rintro ⟨hfalse, -⟩
    exact Bool.false_ne_true hfalse
  have hfail := simLoop_all_fail 1 false rnd 3 0 0 [] ?_
  · rw [hsim] at hfail
    simp only [Prod.mk.injEq] at hfail
    obtain ⟨hatt, hsuc⟩ := hfail
    subst hres
    refine ⟨st, _, h, by dsimp; omega, by dsimp; rw [hsuc], ?_⟩
    intro a h1 h3
    have := calculate_fidelity_noise_one a h3 (rnd (drawsUsed 1 false rnd (a - 1)))
      (hr _).1 (hr _).2
    refine ⟨this, ?_⟩
    rw [rawFid, this]
    norm_num
  · intro a k' hlo hhi
    rw [hfid a k', calculate_fidelity_noise_one a (by omega) (rnd k')
      (hr k').1 (hr k').2]
    norm_num

theorem noise_one_always_fails_witness :
    ∃ st res, run_quantum_simulation 1 false (fun _ => 0) = some (st, res) ∧
      res.attempts = 3 ∧ res.success = false ∧
      ∀ a, 1 ≤ a → a ≤ 3 →
        rawFid 1 false (fun _ => 0) a = 1 / 2 ∧
        rawFid 1 false (fun _ => 0) a < 0.8 :=
  noise_one_always_fails (fun _ => 0)
    (fun i => ⟨le_refl 0, by norm_num⟩)

theorem success_iff_final_success_step_witness :
    ∃ st res, run_quantum_simulation 1 true (fun _ => 0) = some (st, res) ∧
      ((res.success = true ↔ ∃ last, st.getLast? = some last ∧
        last.status = "success" ∧ ∃ f, last.fidelity = some f ∧ (0.8 : ℚ) ≤ f) ∧
      (res.success = false → ∃ last, st.getLast? = some last ∧
        last.status = "retry")) :=
  ⟨_, _, by with_unfolding_all rfl,
    success_iff_final_success_step 1 true (fun _ => 0) _ _
      (by with_unfolding_all rfl)⟩

theorem result_fidelity_in_range_witness :
    ∃ st res, run_quantum_simulation 1 true (fun _ => 0) = some (st, res) ∧
      1 / 2 ≤ res.fidelity ∧ res.fidelity ≤ 1 ∧
      ∃ last, st.getLast? = some last ∧ last.fidelity = some res.fidelity :=
  result_fidelity_in_range 1 true (fun _ => 0) (fun i => le_refl 0)

theorem latency_eq_attempts_mul_witness :
    ∃ st res, run_quantum_simulation 1 true (fun _ => 0) = some (st, res) ∧
      res.latency = (res.attempts : ℚ) * (1 + 1) ∧ res.noiseLevel = 1 :=
  ⟨_, _, by with_unfolding_all rfl,
    latency_eq_attempts_mul 1 true (fun _ => 0) _ _
      (by with_unfolding_all rfl)⟩

end QuantumSim
